import Mathlib

/-!
# Verification of the hybrid product-similarity search core

Shallow embedding of `product_search.py` (class `SearchSimilarProduct`):
the vector-store loader (`_load_embeddings`), the input normalizer
(`_correct_input`, built on `difflib.get_close_matches`), the semantic
ranking and the fuzzy fallback (`rapidfuzz.fuzz.token_sort_ratio`) inside
`search_similar_products`, and the surrounding error handling.

Numeric modelling conventions:
* Python/NumPy floats are modelled by `ℚ`.  `round(x, d)` is modelled by
  `roundQ d x` (round to `d` decimal places; at exact halves Python uses
  round-half-even on binary floats while `roundQ` rounds half up — no
  property below depends on behaviour at an exact decimal tie).
* `np.linalg.norm(self.vectors - consult_emb, axis=1)` produces Euclidean
  distances, which are irrational in general.  The ranking pipeline
  (`rankSemanticsOf` and friends) is therefore defined over an arbitrary
  list `dists : List ℚ` standing for the computed distances; every property
  of the ranking step is proved for all such lists, hence in particular for
  the true distances.  On the orchestrator path (`searchCore`) the distance
  kernel carries the *squared* Euclidean distances (`computeDistSqs`),
  which is exact over `ℚ`; the square map is strictly monotone on
  nonnegatives and fixes the default threshold `1.0`, and no theorem
  stated about the orchestrator depends on the numeric value of a
  distance, only on the shape/error behaviour of the kernel.
* `np.argsort(dists)` with the default `kind='quicksort'` is not stable:
  its only contract is that the returned indices sort the array
  (`isArgsortOf`), the relative order of equal distances being
  implementation-defined.  Semantic-ranking properties are proved for
  every contract-compliant index list; the deterministic `rankSemantics`
  used inside `searchCore` (whose theorems are tie-order independent)
  instantiates the contract with the particular compliant output
  `argsortBy`, which resolves ties toward the smaller index.
-/

namespace ProductSearch

deriving instance DecidableEq for Except

/-- One catalog row as stored by `_load_embeddings` into `self.products`:
`{"id": id_, "code": code, "description": description}`. -/
structure Product where
  id : Int
  code : String
  descr : String
deriving DecidableEq, Repr

instance : Inhabited Product := ⟨⟨0, "", ""⟩⟩

/-- One entry of `results["semantics"]` in `search_similar_products`. -/
structure SemMatch where
  id : Int
  code : String
  descr : String
  similarity : ℚ
  distance : ℚ
deriving DecidableEq, Repr

/-- One entry of `results["fallback_fuzzy"]` in `search_similar_products`. -/
structure FuzzyMatch where
  id : Int
  code : String
  descr : String
  score_fuzzy : ℚ
deriving DecidableEq, Repr

/-- The `results` dict returned by `search_similar_products`. -/
structure SearchResults where
  consult_original : String
  consult_used : String
  semantics : List SemMatch
  fallback_fuzzy : List FuzzyMatch
deriving DecidableEq, Repr

/-- The state built by `_load_embeddings`: `self.products` and `self.vectors`
(the dense matrix, one row per product). -/
structure Store where
  products : List Product
  vectors : List (List ℚ)
deriving DecidableEq, Repr

/-- One fetched database row, with the vector already decoded from its blob
(`np.frombuffer(blob.read(), dtype=np.float32)`). -/
structure RawRow where
  id : Int
  code : String
  descr : String
  vector : List ℚ
deriving DecidableEq, Repr

/-! ## `str.strip()` -/

/-- Python `str.strip()` on the character list: drop leading and trailing
whitespace (modelled with `Char.isWhitespace`, which covers the ASCII
whitespace actually occurring in queries). -/
def stripList (l : List Char) : List Char :=
  ((l.dropWhile Char.isWhitespace).reverse.dropWhile Char.isWhitespace).reverse

/-- Python `str.strip()`, as used on line `description_input.strip()`. -/
def pyStrip (s : String) : String :=
  ⟨stripList s.data⟩

/-! ## `difflib` model (for `_correct_input`)

`difflib.get_close_matches(word, possibilities, n=1, cutoff=0.6)` keeps every
possibility whose `SequenceMatcher(None, x, word).ratio() >= cutoff` (the
`real_quick_ratio`/`quick_ratio` pre-filters are upper bounds of `ratio` and
so do not change the kept set) and returns the largest `(ratio, x)` pair
under tuple comparison.  `ratio` is `2*M/T` where `M` is the total size of
the matching blocks found by repeatedly taking the longest matching block
(earliest in `a`, then earliest in `b`) and recursing on both sides, and
`T` is the sum of the lengths; autojunk only affects sequences of length
≥ 200 and is inert for the queries modelled here. -/

/-- Length of the longest common prefix of two character lists. -/
def commonRun : List Char → List Char → Nat
  | [], _ => 0
  | _ :: _, [] => 0
  | a :: as, b :: bs => if a = b then commonRun as bs + 1 else 0

/-- Model of `SequenceMatcher.find_longest_match` over the whole ranges: the longest
matching block `(i, j, k)` with ties resolved to the smallest `i`, then the
smallest `j` (the fold scans `(i, j)` in lexicographic order and replaces
the best candidate only on a strictly longer run). -/
def bestBlock (a b : List Char) : Nat × Nat × Nat :=
  (List.range a.length).foldl (fun best i =>
    (List.range b.length).foldl (fun best j =>
      if best.2.2 < commonRun (a.drop i) (b.drop j)
      then (i, j, commonRun (a.drop i) (b.drop j)) else best) best) (0, 0, 0)

theorem commonRun_le_left : ∀ a b : List Char, commonRun a b ≤ a.length
  | [], _ => by simp [commonRun]
  | _ :: _, [] => by simp [commonRun]
  | a :: as, b :: bs => by
    simp only [commonRun, List.length_cons]
    split
    · exact Nat.succ_le_succ (commonRun_le_left as bs)
    · exact Nat.zero_le _

theorem commonRun_le_right : ∀ a b : List Char, commonRun a b ≤ b.length
  | [], _ => by simp [commonRun]
  | _ :: _, [] => by simp [commonRun]
  | a :: as, b :: bs => by
    simp only [commonRun, List.length_cons]
    split
    · exact Nat.succ_le_succ (commonRun_le_right as bs)
    · exact Nat.zero_le _

/-- The best block found by `bestBlock` really is a common run at its
reported position. -/
theorem bestBlock_sound (a b : List Char) :
    (bestBlock a b).2.2 ≤ commonRun (a.drop (bestBlock a b).1) (b.drop (bestBlock a b).2.1) := by
  unfold bestBlock
  refine List.foldlRecOn
    (motive := fun p : Nat × Nat × Nat => p.2.2 ≤ commonRun (a.drop p.1) (b.drop p.2.1))
    _ _ _ (Nat.zero_le _) ?_
  intro best hbest i _
  refine List.foldlRecOn
    (motive := fun p : Nat × Nat × Nat => p.2.2 ≤ commonRun (a.drop p.1) (b.drop p.2.1))
    _ _ _ hbest ?_
  intro best' hbest' j _
  dsimp only
  split
  · exact Nat.le_refl _
  · exact hbest'

/-- If `bestBlock` reports a nonempty block, its start lies inside `a`. -/
theorem bestBlock_start_lt (a b : List Char) (h : (bestBlock a b).2.2 ≠ 0) :
    (bestBlock a b).1 < a.length := by
  have h1 := bestBlock_sound a b
  have h2 := commonRun_le_left (a.drop (bestBlock a b).1) (b.drop (bestBlock a b).2.1)
  have h3 : 0 < (a.drop (bestBlock a b).1).length :=
    Nat.lt_of_lt_of_le (Nat.pos_of_ne_zero h) (Nat.le_trans h1 h2)
  rw [List.length_drop] at h3
  omega

/-- Total size of the matching blocks of `SequenceMatcher.get_matching_blocks`:
take the best block, recurse left of it and right of it. -/
def matchTotal (a b : List Char) : Nat :=
  if hbk : (bestBlock a b).2.2 = 0 then 0
  else
    (bestBlock a b).2.2 +
      matchTotal (a.take (bestBlock a b).1) (b.take (bestBlock a b).2.1) +
      matchTotal (a.drop ((bestBlock a b).1 + (bestBlock a b).2.2))
        (b.drop ((bestBlock a b).2.1 + (bestBlock a b).2.2))
termination_by a.length
decreasing_by
  · have := bestBlock_start_lt a b hbk
    simp only [List.length_take]
    omega
  · have := bestBlock_start_lt a b hbk
    have hp : 0 < (bestBlock a b).2.2 := Nat.pos_of_ne_zero hbk
    simp only [List.length_drop]
    omega

/-- Model of `SequenceMatcher(None, a, b).ratio()` (via `_calculate_ratio`):
`2*M/T` when `T = len(a) + len(b)` is nonzero, else `1.0`. -/
def ratioQ (a b : List Char) : ℚ :=
  if a.length + b.length = 0 then 1
  else 2 * (matchTotal a b : ℚ) / (a.length + b.length)

/-- The ratio used by `difflib.get_close_matches(word, possibilities, ...)`
for a possibility `x`: `set_seq1(x)`, `set_seq2(word)`, then `ratio()`. -/
def ratioS (x word : String) : ℚ :=
  ratioQ x.data word.data

/-- One step of `heapq.nlargest(1, result)` over `(ratio, x)` pairs: the
incumbent is replaced exactly when the new pair is strictly greater under
Python tuple comparison. -/
def closeStep (word : String) (best : Option String) (x : String) : Option String :=
  match best with
  | none => some x
  | some y =>
    if ratioS y word < ratioS x word ∨ (ratioS x word = ratioS y word ∧ y < x)
    then some x else some y

/-- Model of `difflib.get_close_matches(word, possibilities, n=1, cutoff)`:
filter possibilities whose ratio reaches the cutoff, then take the largest
`(ratio, x)` pair under Python tuple comparison (so ratio ties are resolved
toward the lexicographically greater string, and among identical pairs the
first encountered is kept). -/
def getCloseMatch (word : String) (possibilities : List String) (cutoff : ℚ) : Option String :=
  (possibilities.filter (fun x => cutoff ≤ ratioS x word)).foldl (closeStep word) none

/-- Model of `SearchSimilarProduct._correct_input`: one `get_close_matches` call over
the catalog descriptions with `n=1, cutoff=0.6`; fall back to the raw input
when nothing qualifies. -/
def correctInput (inputUser : String) (products : List Product) : String :=
  match getCloseMatch inputUser (products.map (·.descr)) (3/5) with
  | some s => s
  | none => inputUser

/-! ## `rapidfuzz.fuzz.token_sort_ratio` model

With `processor=None` (the call in the source), `token_sort_ratio(s1, s2)`
splits each string on whitespace runs, sorts the tokens, joins them with a
single space, and applies `fuzz.ratio` — the normalized Indel similarity
`2*lcs/(len1+len2)` on a 0–100 scale (`100.0` when both strings are
empty). -/

/-- Python `str.split()`: split on whitespace runs, dropping empty pieces. -/
def splitWS (l : List Char) : List (List Char) :=
  match l with
  | [] => []
  | c :: cs =>
    if c.isWhitespace then splitWS cs
    else ((c :: cs).takeWhile (fun d => !d.isWhitespace)) ::
      splitWS ((c :: cs).dropWhile (fun d => !d.isWhitespace))
termination_by l.length
decreasing_by
  · simp
  · rename_i hws
    have h1 : (!c.isWhitespace) = true := by simp_all
    have h2 := (List.dropWhile_sublist (p := fun d => !d.isWhitespace) (l := cs)).length_le
    simp only [List.dropWhile_cons, h1, if_true, List.length_cons]
    omega

/-- Lexicographic comparison of token character lists, as Python compares
strings (by code point). -/
def tokenLe : List Char → List Char → Bool
  | [], _ => true
  | _ :: _, [] => false
  | a :: as, b :: bs => if a < b then true else if b < a then false else tokenLe as bs

/-- The preprocessing of `token_sort_ratio`: `" ".join(sorted(s.split()))`. -/
def tokenSortPrep (s : String) : List Char :=
  List.intercalate [' '] (List.insertionSort (fun x y => tokenLe x y = true) (splitWS s.data))

/-- Length of a longest common subsequence, the kernel of the Indel
similarity used by `fuzz.ratio`. -/
def lcs : List Char → List Char → Nat
  | [], _ => 0
  | _ :: _, [] => 0
  | a :: as, b :: bs =>
    if a = b then lcs as bs + 1
    else max (lcs (a :: as) bs) (lcs as (b :: bs))
termination_by x y => x.length + y.length
decreasing_by
  · simp only [List.length_cons]
    omega
  · simp only [List.length_cons]
    omega
  · simp only [List.length_cons]
    omega

/-- Model of `fuzz.ratio` (normalized Indel similarity × 100): the Indel distance is
`len1 + len2 - 2*lcs`, so the similarity is `2*lcs/(len1+len2)`; two empty
strings score `100.0`. -/
def fuzzRatio100 (a b : List Char) : ℚ :=
  if a.length + b.length = 0 then 100
  else 100 * (2 * (lcs a b : ℚ)) / (a.length + b.length)

/-- Model of `fuzz.token_sort_ratio(s1, s2)` with `processor=None`. -/
def tokenSortRatio100 (s1 s2 : String) : ℚ :=
  fuzzRatio100 (tokenSortPrep s1) (tokenSortPrep s2)

/-! ## Python `round(x, d)` -/

/-- Python `round(x, d)` on the rational model (round to `d` decimal
places; Mathlib's `round` rounds halves up whereas Python's float `round`
rounds halves to even — no claim depends on an exact decimal tie). -/
def roundQ (d : Nat) (x : ℚ) : ℚ :=
  (round (x * (10 : ℚ) ^ d) : ℤ) / (10 : ℚ) ^ d

/-! ## Stable ranking by a rational key

`np.argsort(dists)` and Python's stable `list.sort(key=..., reverse=True)`
are modelled as a sort of the index list `[0, ..., n-1]` by the key with
ties resolved toward the smaller index (for the descending fuzzy sort this
is Python's documented stable behaviour; for `np.argsort` ties between
equal distances are resolved by index order). -/

/-- Ascending order on indices by key `f`, ties by index. -/
def lexRel (f : Nat → ℚ) (i j : Nat) : Prop :=
  f i < f j ∨ (f i = f j ∧ i ≤ j)

instance (f : Nat → ℚ) (i j : Nat) : Decidable (lexRel f i j) := by
  unfold lexRel
  infer_instance

theorem lexRel_total (f : Nat → ℚ) : ∀ i j, lexRel f i j ∨ lexRel f j i := by
  intro i j
  rcases lt_trichotomy (f i) (f j) with h | h | h
  · exact Or.inl (Or.inl h)
  · rcases Nat.le_total i j with hij | hij
    · exact Or.inl (Or.inr ⟨h, hij⟩)
    · exact Or.inr (Or.inr ⟨h.symm, hij⟩)
  · exact Or.inr (Or.inl h)

theorem lexRel_trans (f : Nat → ℚ) :
    ∀ i j k, lexRel f i j → lexRel f j k → lexRel f i k := by
  intro i j k hij hjk
  rcases hij with h1 | ⟨h1, h1'⟩ <;> rcases hjk with h2 | ⟨h2, h2'⟩
  · exact Or.inl (h1.trans h2)
  · exact Or.inl (h2 ▸ h1)
  · exact Or.inl (h1 ▸ h2)
  · exact Or.inr ⟨h1.trans h2, h1'.trans h2'⟩

/-- Indices `0, ..., n-1` sorted by key `f` (ascending, ties by index). -/
def argsortBy (f : Nat → ℚ) (n : Nat) : List Nat :=
  List.insertionSort (lexRel f) (List.range n)

/-- The distance `dists[i]` (always in range where it is used). -/
def distAt (dists : List ℚ) (i : Nat) : ℚ :=
  dists.getD i 0

/-! ## Semantic ranking

The body of the loop `for idx in top_indices:` in
`search_similar_products`: take the `top_k` smallest distances
(`np.argsort(dists)[:self.top_k]`), keep those whose distance is strictly
below `self.minimal_distance`, and build the result records.

The contract NumPy documents for `np.argsort(dists)` is only that the
returned indices sort the array; the default `kind='quicksort'` (introsort)
is *not* stable, so the relative order of indices whose distances are equal
is implementation-defined.  The ranking step is therefore modelled twice:
`rankSemanticsOf` takes the argsort output `idx` as a parameter, so that
properties can be proved for every contract-compliant output, and the
deterministic `rankSemantics` (used on the `searchCore` path, where no
theorem depends on the tie order) instantiates `idx` with one particular
compliant output, `argsortBy` (ties toward the smaller index). -/

/-- The contract of `np.argsort(dists)`: some permutation of
`0, ..., len(dists)-1` listing the distances in non-decreasing order.
Every output NumPy may produce satisfies this, and nothing more is
guaranteed about the order of tied indices. -/
def isArgsortOf (dists : List ℚ) (idx : List Nat) : Prop :=
  List.Perm idx (List.range dists.length) ∧
  idx.Pairwise (fun i j => distAt dists i ≤ distAt dists j)

instance (dists : List ℚ) (idx : List Nat) : Decidable (isArgsortOf dists idx) := by
  unfold isArgsortOf
  infer_instance

/-- The indices of `top_indices` surviving `dist < self.minimal_distance`,
as a function of the argsort output `idx`. -/
def keptOf (dists : List ℚ) (idx : List Nat) (top_k : Nat) (minimalDistance : ℚ) :
    List Nat :=
  (idx.take top_k).filter (fun i => distAt dists i < minimalDistance)

/-- The indices of `top_indices` surviving `dist < self.minimal_distance`,
for the particular compliant argsort output `argsortBy`. -/
def keptIndices (dists : List ℚ) (top_k : Nat) (minimalDistance : ℚ) : List Nat :=
  keptOf dists (argsortBy (distAt dists) dists.length) top_k minimalDistance

/-- One `results["semantics"]` record:
`similarity = round(1/(1+dist) * 100, 2)`, `distance = round(dist, 4)`. -/
def mkSemMatch (p : Product) (d : ℚ) : SemMatch :=
  { id := p.id, code := p.code, descr := p.descr,
    similarity := roundQ 2 (1 / (1 + d) * 100), distance := roundQ 4 d }

/-- The full semantic ranking step of `search_similar_products`, as a
function of the computed distance list and the argsort output `idx`. -/
def rankSemanticsOf (products : List Product) (dists : List ℚ) (idx : List Nat)
    (top_k : Nat) (minimalDistance : ℚ) : List SemMatch :=
  (keptOf dists idx top_k minimalDistance).map fun i =>
    mkSemMatch (products.getD i default) (distAt dists i)

/-- The full semantic ranking step of `search_similar_products`, for the
particular compliant argsort output `argsortBy`. -/
def rankSemantics (products : List Product) (dists : List ℚ) (top_k : Nat)
    (minimalDistance : ℚ) : List SemMatch :=
  (keptIndices dists top_k minimalDistance).map fun i =>
    mkSemMatch (products.getD i default) (distAt dists i)

/-! ## Fuzzy fallback ranking -/

/-- The score `fuzz.token_sort_ratio(description_corrected, product["description"])`
for the product at index `i`. -/
def scoreAt (products : List Product) (query : String) (i : Nat) : ℚ :=
  tokenSortRatio100 query ((products.getD i default).descr)

/-- Indices after `better_fuzz.sort(key=lambda x: x[1], reverse=True)` and
`[:self.top_k]`: stable descending sort by score, then the first `top_k`. -/
def fuzzyIndices (products : List Product) (query : String) (top_k : Nat) : List Nat :=
  (argsortBy (fun i => -(scoreAt products query i)) products.length).take top_k

/-- One `results["fallback_fuzzy"]` record: `score_fuzzy = round(score, 2)`. -/
def mkFuzzyMatch (p : Product) (s : ℚ) : FuzzyMatch :=
  { id := p.id, code := p.code, descr := p.descr, score_fuzzy := roundQ 2 s }

/-- The fuzzy fallback block of `search_similar_products`. -/
def rankFuzzy (products : List Product) (query : String) (top_k : Nat) : List FuzzyMatch :=
  (fuzzyIndices products query top_k).map fun i =>
    mkFuzzyMatch (products.getD i default) (scoreAt products query i)

/-! ## The distance kernel

`dists = np.linalg.norm(self.vectors - consult_emb, axis=1)`.  The
subtraction follows NumPy broadcasting: with a store matrix of shape
`(N, D)` (`N ≥ 1`, rows consistent) and a query of length `D'`, it succeeds
iff `D' = D`, or `D' = 1` (the single query component is broadcast across
every column), or `D = 1` (each single-component row is broadcast across
the query); any other mismatch raises `ValueError`.  An empty store is the
1-D array `np.array([])`, for which the subtraction or the `axis=1` norm
always raises.  Exceptions land in the orchestrator's `except` block.  The
values carried are the *squared* Euclidean distances (exact over `ℚ`);
see the module docstring. -/

/-- Squared Euclidean distance of two equal-length rational vectors. -/
def sqDist (v w : List ℚ) : ℚ :=
  ((v.zip w).map (fun p => (p.1 - p.2) ^ 2)).sum

/-- The squared distances of every store row to the query, or the NumPy
error raised by the subtraction / the `axis=1` norm. -/
def computeDistSqs (vectors : List (List ℚ)) (q : List ℚ) : Except String (List ℚ) :=
  match vectors with
  | [] => .error "axis 1 is out of bounds for array of dimension 1"
  | v0 :: _ =>
    if vectors.all (fun v => v.length = v0.length) then
      if q.length = v0.length then .ok (vectors.map (fun v => sqDist v q))
      else if q.length = 1 then
        .ok (vectors.map (fun v => sqDist v (List.replicate v0.length (q.getD 0 0))))
      else if v0.length = 1 then
        .ok (vectors.map (fun v => sqDist (List.replicate q.length (v.getD 0 0)) q))
      else .error "operands could not be broadcast together"
    else .error "setting an array element with a sequence"

/-! ## The orchestrator -/

/-- Body of `search_similar_products` after the initial `description_input.strip()`:
correct the input, build the result dict, then run the `try` block —
embed, compute distances, rank semantically, and fall back to fuzzy
ranking when no semantic match survived.  Any exception from the embedding
provider or the distance kernel is caught and leaves both match lists
empty. -/
def searchCore (embed : String → Except String (List ℚ)) (store : Store) (top_k : Nat)
    (minimalDistance : ℚ) (descriptionInput : String) : SearchResults :=
  let corrected := correctInput descriptionInput store.products
  match (embed corrected).bind (fun emb => computeDistSqs store.vectors emb) with
  | .error _ => ⟨descriptionInput, corrected, [], []⟩
  | .ok dists =>
    let sems := rankSemantics store.products dists top_k minimalDistance
    if sems.isEmpty then
      ⟨descriptionInput, corrected, [], rankFuzzy store.products corrected top_k⟩
    else
      ⟨descriptionInput, corrected, sems, []⟩

/-- Model of `SearchSimilarProduct.search_similar_products(description_input)`:
strip the raw input, then run the pipeline on the stripped text.  Defaults
in the source: `top_k=5`, `minimal_distance=1.0`. -/
def searchSimilarProducts (embed : String → Except String (List ℚ)) (store : Store)
    (top_k : Nat) (minimalDistance : ℚ) (descriptionInput : String) : SearchResults :=
  searchCore embed store top_k minimalDistance (pyStrip descriptionInput)

/-! ## The loader -/

/-- Model of `SearchSimilarProduct._load_embeddings`: fetch all rows (a fetch
failure — unreachable source — is re-raised), decode each vector, and pack
them with `np.array`, which raises on rows of inconsistent length and
accepts the empty row list (as the empty 1-D array). -/
def loadEmbeddings (fetched : Except String (List RawRow)) : Except String Store :=
  match fetched with
  | .error e => .error e
  | .ok rows =>
    match rows.map (·.vector) with
    | [] => .ok ⟨[], []⟩
    | v0 :: _ =>
      if (rows.map (·.vector)).all (fun v => v.length = v0.length) then
        .ok ⟨rows.map (fun r => ⟨r.id, r.code, r.descr⟩), rows.map (·.vector)⟩
      else .error "setting an array element with a sequence"

/-! ## Infrastructure lemmas -/

theorem argsortBy_perm (f : Nat → ℚ) (n : Nat) : List.Perm (argsortBy f n) (List.range n) :=
  List.perm_insertionSort _ _

theorem argsortBy_pairwise (f : Nat → ℚ) (n : Nat) :
    (argsortBy f n).Pairwise (lexRel f) := by
  haveI : IsTotal Nat (lexRel f) := ⟨lexRel_total f⟩
  haveI : IsTrans Nat (lexRel f) := ⟨lexRel_trans f⟩
  exact List.sorted_insertionSort _ _

theorem argsortBy_nodup (f : Nat → ℚ) (n : Nat) : (argsortBy f n).Nodup :=
  (argsortBy_perm f n).nodup_iff.mpr (List.nodup_range n)

theorem mem_argsortBy {f : Nat → ℚ} {n i : Nat} (h : i ∈ argsortBy f n) : i < n :=
  List.mem_range.mp ((argsortBy_perm f n).mem_iff.mp h)

/-- The strict form of the sorting invariant: along the sorted index list,
keys strictly increase or are equal with strictly increasing indices. -/
theorem argsortBy_pairwise_strict (f : Nat → ℚ) (n : Nat) :
    (argsortBy f n).Pairwise (fun i j => f i < f j ∨ (f i = f j ∧ i < j)) := by
  have h := (argsortBy_pairwise f n).and (argsortBy_nodup f n)
  refine h.imp ?_
  rintro i j ⟨hlex | ⟨heq, hle⟩, hne⟩
  · exact Or.inl hlex
  · exact Or.inr ⟨heq, Nat.lt_of_le_of_ne hle hne⟩

theorem roundQ_mono {d : Nat} {x y : ℚ} (h : x ≤ y) : roundQ d x ≤ roundQ d y := by
  unfold roundQ
  have hpow : (0 : ℚ) < (10 : ℚ) ^ d := by positivity
  apply div_le_div_of_nonneg_right ?_ hpow.le
  have hm : x * (10 : ℚ) ^ d ≤ y * (10 : ℚ) ^ d :=
    mul_le_mul_of_nonneg_right h (le_of_lt hpow)
  have : round (x * (10 : ℚ) ^ d) ≤ round (y * (10 : ℚ) ^ d) := by
    rw [round_eq, round_eq]
    exact Int.floor_mono (by linarith)
  exact_mod_cast this

theorem roundQ_nonneg {d : Nat} {x : ℚ} (h : 0 ≤ x) : 0 ≤ roundQ d x := by
  have h0 : roundQ d 0 = 0 := by
    unfold roundQ
    simp
  calc (0 : ℚ) = roundQ d 0 := h0.symm
    _ ≤ roundQ d x := roundQ_mono h

theorem keptOf_sublist (dists : List ℚ) (idx : List Nat) (top_k : Nat) (md : ℚ) :
    List.Sublist (keptOf dists idx top_k md) idx :=
  (List.filter_sublist _).trans (List.take_sublist _ _)

theorem length_keptOf_le (dists : List ℚ) (idx : List Nat) (top_k : Nat) (md : ℚ) :
    (keptOf dists idx top_k md).length ≤ top_k :=
  Nat.le_trans (List.length_filter_le _ _) (List.length_take_le _ _)

theorem mem_keptOf {dists : List ℚ} {idx : List Nat} {top_k : Nat} {md : ℚ} {i : Nat}
    (hperm : List.Perm idx (List.range dists.length)) (h : i ∈ keptOf dists idx top_k md) :
    i < dists.length ∧ distAt dists i < md := by
  unfold keptOf at h
  have h1 := List.mem_filter.mp h
  refine ⟨?_, of_decide_eq_true h1.2⟩
  exact List.mem_range.mp (hperm.mem_iff.mp (List.mem_of_mem_take h1.1))

/-- The deterministic `argsortBy` output satisfies the `np.argsort`
contract (it is one of the possible outputs). -/
theorem argsortBy_isArgsortOf (dists : List ℚ) :
    isArgsortOf dists (argsortBy (distAt dists) dists.length) := by
  refine ⟨argsortBy_perm _ _, ?_⟩
  refine (argsortBy_pairwise (distAt dists) dists.length).imp ?_
  rintro i j (hlt | ⟨heq, _⟩)
  · exact hlt.le
  · exact heq.le

theorem mem_keptIndices {dists : List ℚ} {top_k : Nat} {md : ℚ} {i : Nat}
    (h : i ∈ keptIndices dists top_k md) :
    i < dists.length ∧ distAt dists i < md :=
  mem_keptOf (argsortBy_isArgsortOf dists).1 h

theorem keptOf_pairwise {dists : List ℚ} {idx : List Nat} (top_k : Nat) (md : ℚ)
    (hsorted : idx.Pairwise (fun i j => distAt dists i ≤ distAt dists j)) :
    (keptOf dists idx top_k md).Pairwise (fun i j => distAt dists i ≤ distAt dists j) :=
  hsorted.sublist (keptOf_sublist dists idx top_k md)

theorem lcs_le_left (a b : List Char) : lcs a b ≤ a.length := by
  induction a, b using lcs.induct with
  | case1 x => simp [lcs]
  | case2 a as => simp [lcs]
  | case3 as b bs ih => simp [lcs]; omega
  | case4 a as b bs hne ih1 ih2 =>
    simp only [lcs, if_neg hne, List.length_cons] at ih1 ih2 ⊢
    omega

theorem lcs_le_right (a b : List Char) : lcs a b ≤ b.length := by
  induction a, b using lcs.induct with
  | case1 x => simp [lcs]
  | case2 a as => simp [lcs]
  | case3 as b bs ih => simp [lcs]; omega
  | case4 a as b bs hne ih1 ih2 =>
    simp only [lcs, if_neg hne, List.length_cons] at ih1 ih2 ⊢
    omega

theorem fuzzRatio100_nonneg (a b : List Char) : 0 ≤ fuzzRatio100 a b := by
  unfold fuzzRatio100
  split
  · norm_num
  · positivity

theorem fuzzRatio100_le_100 (a b : List Char) : fuzzRatio100 a b ≤ 100 := by
  unfold fuzzRatio100
  split
  · norm_num
  · rename_i hne
    have hlen : 0 < a.length + b.length := Nat.pos_of_ne_zero hne
    have hq : (0 : ℚ) < (a.length : ℚ) + (b.length : ℚ) := by exact_mod_cast hlen
    rw [div_le_iff₀ hq]
    have h1 : (lcs a b : ℚ) ≤ (a.length : ℚ) := by exact_mod_cast lcs_le_left a b
    have h2 : (lcs a b : ℚ) ≤ (b.length : ℚ) := by exact_mod_cast lcs_le_right a b
    nlinarith

theorem scoreAt_nonneg (products : List Product) (query : String) (i : Nat) :
    0 ≤ scoreAt products query i :=
  fuzzRatio100_nonneg _ _

theorem scoreAt_le_100 (products : List Product) (query : String) (i : Nat) :
    scoreAt products query i ≤ 100 :=
  fuzzRatio100_le_100 _ _

/-- Rational integers are fixed points of `roundQ`. -/
theorem roundQ_intCast (d : Nat) (z : ℤ) : roundQ d (z : ℚ) = (z : ℚ) := by
  unfold roundQ
  have h1 : (z : ℚ) * (10 : ℚ) ^ d = ((z * 10 ^ d : ℤ) : ℚ) := by push_cast; ring
  rw [h1, round_intCast]
  rw [div_eq_iff (by positivity : ((10 : ℚ) ^ d) ≠ 0)]
  push_cast
  ring

theorem roundQ_le_100 {d : Nat} {x : ℚ} (h : x ≤ 100) : roundQ d x ≤ 100 := by
  have h100 : roundQ d ((100 : ℤ) : ℚ) = ((100 : ℤ) : ℚ) := roundQ_intCast d 100
  calc roundQ d x ≤ roundQ d 100 := roundQ_mono h
    _ = 100 := by exact_mod_cast h100

theorem fuzzyIndices_pairwise (products : List Product) (query : String) (top_k : Nat) :
    (fuzzyIndices products query top_k).Pairwise
      (fun i j => scoreAt products query j < scoreAt products query i ∨
        (scoreAt products query i = scoreAt products query j ∧ i < j)) := by
  have h : (fuzzyIndices products query top_k).Pairwise
      (fun i j => -(scoreAt products query i) < -(scoreAt products query j) ∨
        (-(scoreAt products query i) = -(scoreAt products query j) ∧ i < j)) :=
    (argsortBy_pairwise_strict (fun i => -(scoreAt products query i))
      products.length).sublist (List.take_sublist _ _)
  refine h.imp ?_
  rintro i j (hlt | ⟨heq, hij⟩)
  · exact Or.inl (by linarith)
  · exact Or.inr ⟨by linarith, hij⟩

theorem mem_fuzzyIndices {products : List Product} {query : String} {top_k : Nat} {i : Nat}
    (h : i ∈ fuzzyIndices products query top_k) : i < products.length :=
  mem_argsortBy (List.mem_of_mem_take h)

/-- Relation: `y` ranks at least as high as `x` under the `(ratio, string)` tuple
order used by `heapq.nlargest` in `get_close_matches`. -/
def tupleGE (word y x : String) : Prop :=
  ratioS x word < ratioS y word ∨ (ratioS x word = ratioS y word ∧ x ≤ y)

theorem tupleGE_refl (word y : String) : tupleGE word y y :=
  Or.inr ⟨rfl, le_refl y⟩

theorem tupleGE_trans {word z y x : String} (h1 : tupleGE word z y) (h2 : tupleGE word y x) :
    tupleGE word z x := by
  rcases h1 with h1 | ⟨h1, h1'⟩ <;> rcases h2 with h2 | ⟨h2, h2'⟩
  · exact Or.inl (h2.trans h1)
  · exact Or.inl (h2 ▸ h1)
  · exact Or.inl (h1 ▸ h2)
  · exact Or.inr ⟨h2.trans h1, h2'.trans h1'⟩

/-- Folding `closeStep` from an incumbent returns the greatest
`(ratio, string)` pair among the incumbent and the scanned candidates. -/
theorem closeStep_fold_some (word : String) : ∀ (l : List String) (b : String),
    ∃ y, l.foldl (closeStep word) (some b) = some y ∧ (y = b ∨ y ∈ l) ∧
      tupleGE word y b ∧ ∀ x ∈ l, tupleGE word y x := by
  intro l
  induction l with
  | nil =>
    intro b
    exact ⟨b, rfl, Or.inl rfl, tupleGE_refl word b, by simp⟩
  | cons x xs ih =>
    intro b
    rw [List.foldl_cons]
    by_cases hc : ratioS b word < ratioS x word ∨ (ratioS x word = ratioS b word ∧ b < x)
    · rw [show closeStep word (some b) x = some x from if_pos hc]
      obtain ⟨y, hy, hmem, hge, hall⟩ := ih x
      have hxb : tupleGE word x b := by
        rcases hc with hc | ⟨hc, hc'⟩
        · exact Or.inl hc
        · exact Or.inr ⟨hc.symm, le_of_lt hc'⟩
      refine ⟨y, hy, ?_, tupleGE_trans hge hxb, ?_⟩
      · rcases hmem with rfl | hmem
        · exact Or.inr (List.mem_cons_self _ _)
        · exact Or.inr (List.mem_cons_of_mem _ hmem)
      · intro x' hx'
        rcases List.mem_cons.mp hx' with rfl | hx'
        · exact hge
        · exact hall x' hx'
    · rw [show closeStep word (some b) x = some b from if_neg hc]
      obtain ⟨y, hy, hmem, hge, hall⟩ := ih b
      have hbx : tupleGE word b x := by
        rcases not_or.mp hc with ⟨hc1, hc2⟩
        rcases lt_or_eq_of_le (not_lt.mp hc1) with h | h
        · exact Or.inl h
        · refine Or.inr ⟨h, ?_⟩
          by_contra hxb
          exact hc2 ⟨h, not_le.mp hxb⟩
      refine ⟨y, hy, ?_, hge, ?_⟩
      · rcases hmem with rfl | hmem
        · exact Or.inl rfl
        · exact Or.inr (List.mem_cons_of_mem _ hmem)
      · intro x' hx'
        rcases List.mem_cons.mp hx' with rfl | hx'
        · exact tupleGE_trans hge hbx
        · exact hall x' hx'

/-! ## Claims -/

/-- C1, counterexample: `np.argsort`'s contract does not fix the order of
equal distances (the default `kind='quicksort'` is not stable).  For a
two-product store with both distances equal to `0`, the index list `[1, 0]`
is a contract-compliant argsort output, and the ranking built from it lists
the two tied matches in reversed store order — so "ties broken by original
store order" is not a property the code guarantees. -/
theorem semantic_tie_order_counterexample :
    isArgsortOf [0, 0] [1, 0] ∧
    (rankSemanticsOf [⟨10, "a", "d0"⟩, ⟨20, "b", "d1"⟩] [0, 0] [1, 0] 5 1).map
      SemMatch.id = [20, 10] ∧
    ¬ (keptOf [0, 0] [1, 0] 5 1).Pairwise
      (fun i j => distAt [0, 0] i < distAt [0, 0] j ∨
        (distAt [0, 0] i = distAt [0, 0] j ∧ i < j)) := by
  with_unfolding_all decide

/-- C1, amended: for every store, every computed distance list, and every
index list satisfying the `np.argsort` contract, the semantic ranking step
returns at most `top_k` matches, each coming from a store index whose
(unrounded) distance is strictly below `minimal_distance` (default `1.0`),
with matches listed by non-decreasing distance; the relative order of ties
between equal distances is implementation-defined, not store order.  The
deterministic `rankSemantics` of the search path instantiates the contract
with one compliant output. -/
theorem semantic_rank_spec (products : List Product) (dists : List ℚ) (idx : List Nat)
    (top_k : Nat) (md : ℚ) (hidx : isArgsortOf dists idx) :
    (rankSemanticsOf products dists idx top_k md).length ≤ top_k ∧
    (∀ m ∈ rankSemanticsOf products dists idx top_k md, ∃ i, i < dists.length ∧
      distAt dists i < md ∧ m = mkSemMatch (products.getD i default) (distAt dists i)) ∧
    (keptOf dists idx top_k md).Pairwise
      (fun i j => distAt dists i ≤ distAt dists j) ∧
    (rankSemanticsOf products dists idx top_k md).Pairwise
      (fun m m' => m.distance ≤ m'.distance) ∧
    isArgsortOf dists (argsortBy (distAt dists) dists.length) ∧
    rankSemantics products dists top_k md =
      rankSemanticsOf products dists (argsortBy (distAt dists) dists.length) top_k md := by
  refine ⟨?_, ?_, keptOf_pairwise top_k md hidx.2, ?_, argsortBy_isArgsortOf dists, rfl⟩
  · unfold rankSemanticsOf
    rw [List.length_map]
    exact length_keptOf_le dists idx top_k md
  · intro m hm
    unfold rankSemanticsOf at hm
    obtain ⟨i, hi, hmi⟩ := List.mem_map.mp hm
    obtain ⟨hlt, hmd⟩ := mem_keptOf hidx.1 hi
    exact ⟨i, hlt, hmd, hmi.symm⟩
  · unfold rankSemanticsOf
    rw [List.pairwise_map]
    exact (keptOf_pairwise top_k md hidx.2).imp (fun h => roundQ_mono h)

/-- Witness for C1 at a concrete compliant argsort output: distances
`[1/2, 0]`, argsort `[1, 0]`. -/
theorem semantic_rank_spec_witness :
    isArgsortOf [(1 : ℚ)/2, 0] [1, 0] ∧
    ((rankSemanticsOf [⟨1, "c", "d0"⟩, ⟨2, "e", "d1"⟩] [(1 : ℚ)/2, 0] [1, 0] 5 1).length ≤ 5 ∧
    (∀ m ∈ rankSemanticsOf [⟨1, "c", "d0"⟩, ⟨2, "e", "d1"⟩] [(1 : ℚ)/2, 0] [1, 0] 5 1,
      ∃ i, i < ([(1 : ℚ)/2, 0]).length ∧ distAt [(1 : ℚ)/2, 0] i < 1 ∧
        m = mkSemMatch (([⟨1, "c", "d0"⟩, ⟨2, "e", "d1"⟩] : List Product).getD i default)
          (distAt [(1 : ℚ)/2, 0] i)) ∧
    (keptOf [(1 : ℚ)/2, 0] [1, 0] 5 1).Pairwise
      (fun i j => distAt [(1 : ℚ)/2, 0] i ≤ distAt [(1 : ℚ)/2, 0] j) ∧
    (rankSemanticsOf [⟨1, "c", "d0"⟩, ⟨2, "e", "d1"⟩] [(1 : ℚ)/2, 0] [1, 0] 5 1).Pairwise
      (fun m m' => m.distance ≤ m'.distance) ∧
    isArgsortOf [(1 : ℚ)/2, 0] (argsortBy (distAt [(1 : ℚ)/2, 0]) ([(1 : ℚ)/2, 0]).length) ∧
    rankSemantics [⟨1, "c", "d0"⟩, ⟨2, "e", "d1"⟩] [(1 : ℚ)/2, 0] 5 1 =
      rankSemanticsOf [⟨1, "c", "d0"⟩, ⟨2, "e", "d1"⟩] [(1 : ℚ)/2, 0]
        (argsortBy (distAt [(1 : ℚ)/2, 0]) ([(1 : ℚ)/2, 0]).length) 5 1) :=
  ⟨by with_unfolding_all decide,
    semantic_rank_spec [⟨1, "c", "d0"⟩, ⟨2, "e", "d1"⟩] [(1 : ℚ)/2, 0] [1, 0] 5 1
      (by with_unfolding_all decide)⟩

/-- C6: for every store and normalized query, the fuzzy fallback returns at
most `top_k` matches, every reported score lies in `[0, 100]`, scores are
non-increasing along the returned list, and ties between equal raw scores
keep original store order (strictly increasing index). -/
theorem fuzzy_rank_topk_bounds_order (products : List Product) (query : String)
    (top_k : Nat) :
    (rankFuzzy products query top_k).length ≤ top_k ∧
    (∀ m ∈ rankFuzzy products query top_k,
      0 ≤ m.score_fuzzy ∧ m.score_fuzzy ≤ 100) ∧
    (rankFuzzy products query top_k).Pairwise
      (fun m m' => m'.score_fuzzy ≤ m.score_fuzzy) ∧
    (fuzzyIndices products query top_k).Pairwise
      (fun i j => scoreAt products query j < scoreAt products query i ∨
        (scoreAt products query i = scoreAt products query j ∧ i < j)) := by
  refine ⟨?_, ?_, ?_, fuzzyIndices_pairwise products query top_k⟩
  · unfold rankFuzzy
    rw [List.length_map]
    exact Nat.le_trans (List.length_take_le _ _) (Nat.le_refl _)
  · intro m hm
    unfold rankFuzzy at hm
    obtain ⟨i, _, hmi⟩ := List.mem_map.mp hm
    subst hmi
    exact ⟨roundQ_nonneg (scoreAt_nonneg products query i),
      roundQ_le_100 (scoreAt_le_100 products query i)⟩
  · unfold rankFuzzy
    rw [List.pairwise_map]
    refine (fuzzyIndices_pairwise products query top_k).imp ?_
    rintro i j (hlt | ⟨heq, _⟩)
    · exact roundQ_mono hlt.le
    · exact roundQ_mono heq.ge

/-- Whatever happens inside the `try` block, the returned dict carries the
stripped input as `consult_original` and the corrected query as
`consult_used`. -/
theorem searchCore_consults (embed : String → Except String (List ℚ)) (store : Store)
    (top_k : Nat) (md : ℚ) (input : String) :
    (searchCore embed store top_k md input).consult_original = input ∧
    (searchCore embed store top_k md input).consult_used =
      correctInput input store.products := by
  unfold searchCore
  dsimp only
  split
  · exact ⟨rfl, rfl⟩
  · split
    · exact ⟨rfl, rfl⟩
    · exact ⟨rfl, rfl⟩

/-- C2: whenever the embedding provider raises, or the store is empty
(the NumPy subtraction/norm on the empty matrix raises), or the distance
kernel raises for any other reason, `search_similar_products` propagates
nothing: it returns the well-formed result dict with `consult_original`,
`consult_used`, and both match lists empty. -/
theorem search_failure_returns_wellformed_empty (embed : String → Except String (List ℚ))
    (store : Store) (top_k : Nat) (md : ℚ) (input : String)
    (h : (∃ e, embed (correctInput (pyStrip input) store.products) = .error e) ∨
      store.vectors = [] ∨
      (∃ emb e, embed (correctInput (pyStrip input) store.products) = .ok emb ∧
        computeDistSqs store.vectors emb = .error e)) :
    searchSimilarProducts embed store top_k md input =
      ⟨pyStrip input, correctInput (pyStrip input) store.products, [], []⟩ := by
  unfold searchSimilarProducts searchCore
  dsimp only
  split
  · rfl
  · rename_i dists heq
    exfalso
    rcases h with ⟨e, he⟩ | hvec | ⟨emb, e, hok, herr⟩
    · rw [he] at heq
      simp [Except.bind] at heq
    · rcases hE : embed (correctInput (pyStrip input) store.products) with e | emb
      · rw [hE] at heq
        simp [Except.bind] at heq
      · rw [hE] at heq
        simp only [Except.bind] at heq
        rw [hvec] at heq
        simp [computeDistSqs] at heq
    · rw [hok] at heq
      simp only [Except.bind] at heq
      rw [herr] at heq
      exact Except.noConfusion heq

/-- Witness for C2 at a concrete failing provider and empty store. -/
theorem search_failure_returns_wellformed_empty_witness :
    searchSimilarProducts (fun _ => .error "provider down") ⟨[], []⟩ 5 1 "abc" =
      ⟨"abc", "abc", [], []⟩ := by
  calc searchSimilarProducts (fun _ => .error "provider down") ⟨[], []⟩ 5 1 "abc"
      = ⟨pyStrip "abc", correctInput (pyStrip "abc") (Store.mk [] []).products, [], []⟩ :=
        search_failure_returns_wellformed_empty (fun _ => .error "provider down")
          ⟨[], []⟩ 5 1 "abc" (Or.inl ⟨"provider down", rfl⟩)
    _ = ⟨"abc", "abc", [], []⟩ := by with_unfolding_all decide

/-- C7: for every call, at most one of `semantics` and `fallback_fuzzy` is
non-empty — the fuzzy fallback only runs when the semantic list is empty —
and both fields are always present in the returned record. -/
theorem search_semantic_fuzzy_exclusive (embed : String → Except String (List ℚ))
    (store : Store) (top_k : Nat) (md : ℚ) (input : String) :
    (searchSimilarProducts embed store top_k md input).semantics = [] ∨
    (searchSimilarProducts embed store top_k md input).fallback_fuzzy = [] := by
  unfold searchSimilarProducts searchCore
  dsimp only
  split
  · exact Or.inl rfl
  · split
    · exact Or.inl rfl
    · exact Or.inr rfl

/-- C9: the search pipeline holds no mutable state across calls — queries
are corrected, embedded (by the given deterministic provider), and ranked
by pure computation over the immutable store — so two calls with the same
raw query return identical results. -/
theorem search_idempotent (embed : String → Except String (List ℚ)) (store : Store)
    (top_k : Nat) (md : ℚ) (input : String) :
    searchSimilarProducts embed store top_k md input =
      searchSimilarProducts embed store top_k md input := rfl

/-- C10: `search_similar_products` strips the raw query first: the whole
result is a function of the stripped text, `consult_original` records the
stripped input, and for an input with surrounding whitespace the recorded
`consult_original` differs from the argument. -/
theorem search_strips_input :
    (∀ (embed : String → Except String (List ℚ)) (store : Store) (top_k : Nat)
      (md : ℚ) (input : String),
      searchSimilarProducts embed store top_k md input =
        searchCore embed store top_k md (pyStrip input) ∧
      (searchSimilarProducts embed store top_k md input).consult_original =
        pyStrip input) ∧
    (searchSimilarProducts (fun _ => .error "x") ⟨[], []⟩ 5 1 " harry ").consult_original =
      "harry" ∧
    ("harry" : String) ≠ " harry " := by
  refine ⟨fun embed store top_k md input => ⟨rfl, ?_⟩, ?_, ?_⟩
  · exact (searchCore_consults embed store top_k md (pyStrip input)).1
  · with_unfolding_all decide
  · with_unfolding_all decide

/-- C3, counterexample: at distance `0` the stored similarity field is
`round(1/(1+0) * 100, 2) = 100.0`, not the claimed `1/(1+distance)` value
rounded to two decimals (which would be `1.0`) — the code scales by 100
before rounding. -/
theorem similarity_scale_counterexample :
    (rankSemantics [⟨1, "EAN1", "book"⟩] [0] 5 1).map SemMatch.similarity = [100] ∧
    (rankSemantics [⟨1, "EAN1", "book"⟩] [0] 5 1).map SemMatch.similarity ≠
      [roundQ 2 (1 / (1 + (0 : ℚ)))] := by
  with_unfolding_all decide

/-- C3, amended: every returned semantic match carries
`similarity = round(1/(1+d) * 100, 2)` — the value `1/(1+d) * 100` lies in
`(0, 100]` for the nonnegative distances `d` produced by the norm — and
`distance = round(d, 4)`. -/
theorem semantic_match_fields (products : List Product) (dists : List ℚ) (top_k : Nat)
    (md : ℚ) (hnn : ∀ d ∈ dists, 0 ≤ d) :
    ∀ m ∈ rankSemantics products dists top_k md, ∃ i, i < dists.length ∧
      m.similarity = roundQ 2 (1 / (1 + distAt dists i) * 100) ∧
      m.distance = roundQ 4 (distAt dists i) ∧
      0 < 1 / (1 + distAt dists i) * 100 ∧
      1 / (1 + distAt dists i) * 100 ≤ 100 := by
  intro m hm
  obtain ⟨i, hi, hmi⟩ := List.mem_map.mp hm
  obtain ⟨hlt, _⟩ := mem_keptIndices hi
  have hd : 0 ≤ distAt dists i := by
    refine hnn _ ?_
    unfold distAt
    rw [List.getD_eq_getElem _ _ hlt]
    exact List.getElem_mem hlt
  have hpos : (0 : ℚ) < 1 + distAt dists i := by linarith
  have hq : 0 < 1 / (1 + distAt dists i) := div_pos one_pos hpos
  have hle : 1 / (1 + distAt dists i) ≤ 1 := by
    rw [div_le_one hpos]
    linarith
  subst hmi
  exact ⟨i, hlt, rfl, rfl, by linarith, by linarith⟩

/-- Witness for C3 at one product away from the query by distance `1/2`. -/
theorem semantic_match_fields_witness :
    (∀ d ∈ [(1 : ℚ)/2], 0 ≤ d) ∧
    (∀ m ∈ rankSemantics [⟨1, "c", "d"⟩] [(1 : ℚ)/2] 5 1, ∃ i, i < ([(1 : ℚ)/2]).length ∧
      m.similarity = roundQ 2 (1 / (1 + distAt [(1 : ℚ)/2] i) * 100) ∧
      m.distance = roundQ 4 (distAt [(1 : ℚ)/2] i) ∧
      0 < 1 / (1 + distAt [(1 : ℚ)/2] i) * 100 ∧
      1 / (1 + distAt [(1 : ℚ)/2] i) * 100 ≤ 100) :=
  ⟨by with_unfolding_all decide,
    semantic_match_fields [⟨1, "c", "d"⟩] [(1 : ℚ)/2] 5 1 (by with_unfolding_all decide)⟩

/-- C4, counterexample: an empty source does not abort construction — the
loader accepts zero rows (`np.array([])` succeeds) and yields a usable
empty store. -/
theorem load_empty_source_succeeds :
    loadEmbeddings (.ok []) = .ok ⟨[], []⟩ := by
  with_unfolding_all decide

/-- C4, amended: construction fails (the exception is re-raised, aborting
`__init__`) when the source is unreachable or when two decoded vectors have
different lengths; an empty source instead loads successfully as the empty
store. -/
theorem load_error_conditions :
    (∀ e : String, loadEmbeddings (.error e) = .error e) ∧
    (∀ (rows : List RawRow) (v w : List ℚ), v ∈ rows.map (·.vector) →
      w ∈ rows.map (·.vector) → v.length ≠ w.length →
      ∃ e, loadEmbeddings (.ok rows) = .error e) ∧
    loadEmbeddings (.ok []) = .ok ⟨[], []⟩ := by
  refine ⟨fun e => rfl, ?_, by with_unfolding_all decide⟩
  intro rows v w hv hw hne
  unfold loadEmbeddings
  dsimp only
  split
  · rename_i heq
    rw [heq] at hv
    exact absurd hv (List.not_mem_nil v)
  · rename_i v0 vs heq
    rw [if_neg]
    · exact ⟨_, rfl⟩
    · intro hall
      rw [heq] at hall hv hw
      have h1 := of_decide_eq_true (List.all_eq_true.mp hall v hv)
      have h2 := of_decide_eq_true (List.all_eq_true.mp hall w hw)
      exact hne (h1.trans h2.symm)

/-- Witness for C4 on two rows with vectors of lengths 2 and 1. -/
theorem load_error_conditions_witness :
    (([0, 0] : List ℚ) ∈
      ([⟨1, "a", "d1", [0, 0]⟩, ⟨2, "b", "d2", [0]⟩] : List RawRow).map (·.vector)) ∧
    (([0] : List ℚ) ∈
      ([⟨1, "a", "d1", [0, 0]⟩, ⟨2, "b", "d2", [0]⟩] : List RawRow).map (·.vector)) ∧
    ([0, 0] : List ℚ).length ≠ ([0] : List ℚ).length ∧
    (∃ e, loadEmbeddings (.ok [⟨1, "a", "d1", [0, 0]⟩, ⟨2, "b", "d2", [0]⟩]) = .error e) :=
  ⟨by with_unfolding_all decide, by with_unfolding_all decide, by with_unfolding_all decide,
    load_error_conditions.2.1 [⟨1, "a", "d1", [0, 0]⟩, ⟨2, "b", "d2", [0]⟩] [0, 0] [0]
      (by with_unfolding_all decide) (by with_unfolding_all decide)
      (by with_unfolding_all decide)⟩

/-- C8, counterexample: a query vector of dimension 3 against a store of
dimension 2 raises inside the `try` block, but `search_similar_products`
swallows the exception and returns the well-formed empty result — no
`DimensionMismatchError` reaches the caller. -/
theorem dimension_mismatch_swallowed_counterexample :
    computeDistSqs [[(0 : ℚ), 0]] [1, 2, 3] =
      .error "operands could not be broadcast together" ∧
    searchSimilarProducts (fun _ => .ok [(1 : ℚ), 2, 3]) ⟨[⟨1, "c", "zz"⟩], [[0, 0]]⟩
      5 1 "qq" = ⟨"qq", "qq", [], []⟩ := by
  with_unfolding_all decide

/-- C8, amended: when the embedded query's dimensionality differs from the
store's (and neither is the NumPy-broadcastable 1), the distance kernel
raises, and the orchestrator's catch-all converts this to the well-formed
result with both match lists empty instead of surfacing an error. -/
theorem dimension_mismatch_swallowed (embed : String → Except String (List ℚ))
    (store : Store) (top_k : Nat) (md : ℚ) (input : String) (emb v0 : List ℚ)
    (vs : List (List ℚ)) (hvec : store.vectors = v0 :: vs)
    (hcons : ∀ v ∈ store.vectors, v.length = v0.length)
    (hne : emb.length ≠ v0.length) (h1 : emb.length ≠ 1) (hD : v0.length ≠ 1)
    (hembed : embed (correctInput (pyStrip input) store.products) = .ok emb) :
    (∃ e, computeDistSqs store.vectors emb = .error e) ∧
    searchSimilarProducts embed store top_k md input =
      ⟨pyStrip input, correctInput (pyStrip input) store.products, [], []⟩ := by
  rw [hvec] at hcons
  have herr : computeDistSqs store.vectors emb =
      .error "operands could not be broadcast together" := by
    unfold computeDistSqs
    rw [hvec]
    dsimp only
    have hall : ((v0 :: vs).all fun v => decide (v.length = v0.length)) = true := by
      refine List.all_eq_true.mpr ?_
      intro v hvmem
      exact decide_eq_true (hcons v hvmem)
    rw [if_pos hall, if_neg hne, if_neg h1, if_neg hD]
  refine ⟨⟨_, herr⟩, ?_⟩
  unfold searchSimilarProducts searchCore
  dsimp only
  split
  · rfl
  · rename_i dists heq
    rw [hembed] at heq
    simp only [Except.bind] at heq
    rw [herr] at heq
    exact Except.noConfusion heq

/-- C5, counterexample: with query `"ab"` and vocabulary
`["abx", "aby"]` both entries tie at ratio `4/5 ≥ 0.6`, and the function
returns `"aby"` — `heapq.nlargest` on `(ratio, string)` tuples resolves
ratio ties toward the lexicographically greater string, not the first
vocabulary entry. -/
theorem correct_input_tie_counterexample :
    correctInput "ab" [⟨1, "c1", "abx"⟩, ⟨2, "c2", "aby"⟩] = "aby" ∧
    correctInput "ab" [⟨1, "c1", "abx"⟩, ⟨2, "c2", "aby"⟩] ≠ "abx" ∧
    ratioS "abx" "ab" = ratioS "aby" "ab" ∧
    (3/5 : ℚ) ≤ ratioS "abx" "ab" := by
  with_unfolding_all decide

/-- C5, amended: `_correct_input` returns the raw string unchanged when no
vocabulary entry reaches ratio `0.6`, and otherwise returns a vocabulary
entry of maximal ratio — with ratio ties resolved toward the
lexicographically greater entry (the `(ratio, string)` tuple maximum), not
the first encountered. -/
theorem correct_input_spec (raw : String) (products : List Product) :
    ((∀ x ∈ products.map (·.descr), ratioS x raw < 3/5) →
      correctInput raw products = raw) ∧
    ((∃ x, x ∈ products.map (·.descr) ∧ 3/5 ≤ ratioS x raw) →
      correctInput raw products ∈ products.map (·.descr) ∧
      3/5 ≤ ratioS (correctInput raw products) raw ∧
      ∀ x ∈ products.map (·.descr), 3/5 ≤ ratioS x raw →
        tupleGE raw (correctInput raw products) x) := by
  constructor
  · intro hall
    have hfil : (products.map (·.descr)).filter (fun x => decide (3/5 ≤ ratioS x raw)) = [] := by
      rw [List.filter_eq_nil_iff]
      intro x hx
      simpa using not_le.mpr (hall x hx)
    unfold correctInput getCloseMatch
    rw [hfil]
    rfl
  · rintro ⟨x0, hx0, hge⟩
    have hx0f : x0 ∈ (products.map (·.descr)).filter (fun x => decide (3/5 ≤ ratioS x raw)) :=
      List.mem_filter.mpr ⟨hx0, decide_eq_true hge⟩
    rcases hfe : (products.map (·.descr)).filter (fun x => decide (3/5 ≤ ratioS x raw)) with
      _ | ⟨f0, fs⟩
    · rw [hfe] at hx0f
      exact absurd hx0f (List.not_mem_nil x0)
    · obtain ⟨y, hy, hmem, hge0, hall⟩ := closeStep_fold_some raw fs f0
      have hres : correctInput raw products = y := by
        unfold correctInput getCloseMatch
        rw [hfe, List.foldl_cons]
        rw [show closeStep raw none f0 = some f0 from rfl]
        rw [hy]
      have hymem_f : y ∈ (products.map (·.descr)).filter
          (fun x => decide (3/5 ≤ ratioS x raw)) := by
        rw [hfe]
        rcases hmem with rfl | hmem
        · exact List.mem_cons_self _ _
        · exact List.mem_cons_of_mem _ hmem
      have hy_in : y ∈ products.map (·.descr) := List.mem_of_mem_filter hymem_f
      have hy_ge : 3/5 ≤ ratioS y raw := of_decide_eq_true (List.mem_filter.mp hymem_f).2
      rw [hres]
      refine ⟨hy_in, hy_ge, ?_⟩
      intro x hx hxge
      have hxf : x ∈ (products.map (·.descr)).filter (fun x => decide (3/5 ≤ ratioS x raw)) :=
        List.mem_filter.mpr ⟨hx, decide_eq_true hxge⟩
      rw [hfe] at hxf
      rcases List.mem_cons.mp hxf with rfl | hxf
      · exact hge0
      · exact hall x hxf

/-- Witness for C5: the scenario-D style query `"harr"` against vocabulary
`["harry"]`, ratio `8/9 ≥ 0.6`, is corrected to the vocabulary entry. -/
theorem correct_input_spec_witness :
    (∃ x, x ∈ ([⟨1, "c", "harry"⟩] : List Product).map (·.descr) ∧
      3/5 ≤ ratioS x "harr") ∧
    (correctInput "harr" [⟨1, "c", "harry"⟩] ∈
      ([⟨1, "c", "harry"⟩] : List Product).map (·.descr) ∧
    3/5 ≤ ratioS (correctInput "harr" [⟨1, "c", "harry"⟩]) "harr" ∧
    ∀ x ∈ ([⟨1, "c", "harry"⟩] : List Product).map (·.descr),
      3/5 ≤ ratioS x "harr" →
      tupleGE "harr" (correctInput "harr" [⟨1, "c", "harry"⟩]) x) :=
  ⟨by with_unfolding_all decide,
    (correct_input_spec "harr" [⟨1, "c", "harry"⟩]).2 (by with_unfolding_all decide)⟩

/-- Witness for C8 at the concrete 2-dimensional store and 3-dimensional
query. -/
theorem dimension_mismatch_swallowed_witness :
    (∃ e, computeDistSqs [[(0 : ℚ), 0]] [10, 20, 30] = .error e) ∧
    searchSimilarProducts (fun _ => .ok [(10 : ℚ), 20, 30])
      ⟨[⟨1, "c", "zz"⟩], [[0, 0]]⟩ 5 1 "qr" =
      ⟨pyStrip "qr", correctInput (pyStrip "qr") [⟨1, "c", "zz"⟩], [], []⟩ :=
  dimension_mismatch_swallowed (fun _ => .ok [(10 : ℚ), 20, 30])
    ⟨[⟨1, "c", "zz"⟩], [[0, 0]]⟩ 5 1 "qr" [10, 20, 30] [0, 0] [] rfl
    (by with_unfolding_all decide) (by with_unfolding_all decide)
    (by with_unfolding_all decide) (by with_unfolding_all decide) rfl

end ProductSearch
